import Mathlib

/-!
Verification of the log-bilinear language model implementation `lbl.py`
(repository `Querela/neural_lm`).

The Python source is shallowly embedded:

* `make_instances` (sentence padding and window sliding) becomes a pure
  function on `List`;
* the minibatch slicing of the compiled Theano functions becomes Python
  slice arithmetic on `List`;
* the model's forward computation (embedding lookup, context combination,
  scoring, row-wise softmax) is modelled over `ℝ` with `Fin`-indexed
  tensors — floating point is idealised as real arithmetic;
* the training loop of `train_lbl` becomes a state-passing recursion whose
  dev/test perplexity evaluations are supplied by oracles (they are a
  function of the number of parameter updates performed so far), since the
  gradient computation itself is delegated to Theano.
-/

namespace NeuralLM

/-! ## Instance generation (`make_instances`, lbl.py lines 114-131) -/

/-- The id sequence of a padded sentence: `make_instances` first pads the
sentence with `context_sz` start markers and `context_sz` end markers
(lbl.py line 124) and then converts tokens to ids via
`vocab.doc_words_to_ids` (line 125), an external collaborator modelled as
the function `lookup`. -/
def paddedIds (lookup : String → ℕ) (context_sz : ℕ) (sentence : List String) : List ℕ :=
  (List.replicate context_sz "<s>" ++ sentence ++ List.replicate context_sz "</s>").map lookup

/-- The sliding window `zip(*(sentence[i:] for i in xrange(context_sz+1)))`
of lbl.py line 126: the `j`-th tuple (for `j < len - context_sz`, the length
of the shortest shifted slice) is `(s[j], ..., s[j+context_sz])`, the
length-`context_sz+1` window starting at position `j`. -/
def slideWindows (context_sz : ℕ) (l : List ℕ) : List (List ℕ) :=
  (List.range (l.length - context_sz)).map (fun j => (l.drop j).take (context_sz + 1))

/-- One sentence's contribution to `make_instances` (lbl.py lines 122-128):
each window is split into `instance[:-1]` (the context) and `instance[-1]`
(the target). -/
def sentenceInstances (lookup : String → ℕ) (context_sz : ℕ) (sentence : List String) :
    List (List ℕ × ℕ) :=
  (slideWindows context_sz (paddedIds lookup context_sz sentence)).map
    (fun w => (w.dropLast, (w.getLast?).getD 0))

/-- `make_instances` over a corpus (lbl.py lines 114-131): the instances of
all sentences in order, returned as the parallel `data` and `labels`
lists. -/
def make_instances (lookup : String → ℕ) (context_sz : ℕ) (corpus : List (List String)) :
    List (List ℕ) × List ℕ :=
  let all := corpus.flatMap (sentenceInstances lookup context_sz)
  (all.map Prod.fst, all.map Prod.snd)

theorem dropLast_take_succ (l : List ℕ) (k : ℕ) (h : k + 1 ≤ l.length) :
    (l.take (k + 1)).dropLast = l.take k := by
  rw [List.dropLast_eq_take, List.take_take, List.length_take]
  congr 1
  omega

theorem getLast?_take_succ (l : List ℕ) (k : ℕ) (h : k + 1 ≤ l.length) :
    (l.take (k + 1)).getLast? = l[k]? := by
  rw [List.getLast?_eq_getElem?, List.length_take]
  have hmin : min (k + 1) l.length - 1 = k := by omega
  rw [hmin, List.getElem?_take]
  simp

/-! ## Minibatch slicing (lbl.py lines 157-160 and 186-209) -/

/-- Python slice `l[a:b]` on a list: the elements at indices `a, ..., b-1`.
This is how the compiled Theano functions select a minibatch via their
`givens` (lbl.py lines 186-209). -/
def pySlice {α : Type} (l : List α) (a b : ℕ) : List α := (l.take b).drop a

/-- The `index`-th minibatch `l[index*batch_size:(index+1)*batch_size]`. -/
def batchSlice {α : Type} (l : List α) (batch_size index : ℕ) : List α :=
  pySlice l (index * batch_size) ((index + 1) * batch_size)

/-- `n_train_batches = train_set_x.get_value(borrow=True).shape[0] / batch_size`
(lbl.py lines 158-160): Python 2 `/` on ints is floor division. -/
def nBatches {α : Type} (l : List α) (batch_size : ℕ) : ℕ := l.length / batch_size

/-- The minibatches a training or evaluation pass touches: the batch index
ranges over `xrange(n_batches)` (lbl.py lines 213, 219, 238). -/
def allBatches {α : Type} (l : List α) (batch_size : ℕ) : List (List α) :=
  (List.range (nBatches l batch_size)).map (batchSlice l batch_size)

theorem batchSlice_eq_drop_take {α : Type} (l : List α) (bs i : ℕ) :
    batchSlice l bs i = (l.drop (i * bs)).take bs := by
  rw [batchSlice, pySlice]
  have h : (i + 1) * bs = i * bs + bs := by ring
  rw [h, ← List.take_drop]

theorem range_map_batchSlice_flatten {α : Type} (l : List α) (bs : ℕ) :
    ∀ n : ℕ, ((List.range n).map (batchSlice l bs)).flatten = l.take (n * bs)
  | 0 => by simp
  | n + 1 => by
    rw [List.range_succ, List.map_append, List.flatten_append,
      range_map_batchSlice_flatten l bs n]
    simp only [List.map_cons, List.map_nil, List.flatten_cons, List.flatten_nil,
      List.append_nil, batchSlice_eq_drop_take]
    rw [Nat.succ_mul, List.take_add]

/-- Claim C3: for every sentence and context size `c`, the instance
generator pads the sentence with `c` start markers and `c` end markers and
produces exactly `len(padded_sentence) - c = len(sentence) + c` instances,
each instance having a context of exactly the `c` ids starting at its
window position and a target equal to the id immediately following that
context. -/
theorem sentenceInstances_spec (lookup : String → ℕ) (context_sz : ℕ)
    (sentence : List String) :
    (sentenceInstances lookup context_sz sentence).length = sentence.length + context_sz ∧
    (sentenceInstances lookup context_sz sentence).length
      = (paddedIds lookup context_sz sentence).length - context_sz ∧
    ∀ j, j < (sentenceInstances lookup context_sz sentence).length →
      ((sentenceInstances lookup context_sz sentence).getD j ([], 0)).1.length = context_sz ∧
      ((sentenceInstances lookup context_sz sentence).getD j ([], 0)).1
        = ((paddedIds lookup context_sz sentence).drop j).take context_sz ∧
      ((sentenceInstances lookup context_sz sentence).getD j ([], 0)).2
        = (paddedIds lookup context_sz sentence).getD (j + context_sz) 0 := by
  have hlen : (paddedIds lookup context_sz sentence).length
      = sentence.length + 2 * context_sz := by
    simp [paddedIds]
    omega
  have hinstlen : (sentenceInstances lookup context_sz sentence).length
      = (paddedIds lookup context_sz sentence).length - context_sz := by
    simp [sentenceInstances, slideWindows]
  refine ⟨by rw [hinstlen, hlen]; omega, hinstlen, ?_⟩
  intro j hj
  have hj' : j < (paddedIds lookup context_sz sentence).length - context_sz := by
    rw [← hinstlen]; exact hj
  have hwin : (sentenceInstances lookup context_sz sentence)[j]?
      = some ((((paddedIds lookup context_sz sentence).drop j).take (context_sz + 1)).dropLast,
          ((((paddedIds lookup context_sz sentence).drop j).take
            (context_sz + 1)).getLast?).getD 0) := by
    simp [sentenceInstances, slideWindows, List.getElem?_map, List.getElem?_range, hj']
  have hgd : (sentenceInstances lookup context_sz sentence).getD j ([], 0)
      = ((((paddedIds lookup context_sz sentence).drop j).take (context_sz + 1)).dropLast,
          ((((paddedIds lookup context_sz sentence).drop j).take
            (context_sz + 1)).getLast?).getD 0) := by
    rw [List.getD_eq_getElem?_getD, hwin]
    rfl
  have hbound : context_sz + 1 ≤ ((paddedIds lookup context_sz sentence).drop j).length := by
    rw [List.length_drop]
    omega
  refine ⟨?_, ?_, ?_⟩
  · rw [hgd]
    dsimp only
    rw [dropLast_take_succ _ _ hbound, List.length_take, List.length_drop]
    omega
  · rw [hgd]
    exact dropLast_take_succ _ _ hbound
  · rw [hgd]
    dsimp only
    rw [getLast?_take_succ _ _ hbound, List.getElem?_drop,
      List.getD_eq_getElem?_getD]

/-- Witness for C3: a concrete sentence of length 2 with context size 2;
the padded id list is `[0, 0, 2, 2, 1, 1]` and instance 1 has context
`[0, 2]` and target `2`. -/
theorem sentenceInstances_spec_witness :
    1 < (sentenceInstances
        (fun t => if t = "<s>" then 0 else if t = "</s>" then 1 else 2) 2
        ["a", "b"]).length ∧
    ((sentenceInstances
        (fun t => if t = "<s>" then 0 else if t = "</s>" then 1 else 2) 2
        ["a", "b"]).getD 1 ([], 0)).1 = [0, 2] ∧
    ((sentenceInstances
        (fun t => if t = "<s>" then 0 else if t = "</s>" then 1 else 2) 2
        ["a", "b"]).getD 1 ([], 0)).2 = 2 := by
  have h := (sentenceInstances_spec
      (fun t => if t = "<s>" then 0 else if t = "</s>" then 1 else 2) 2
      ["a", "b"]).2.2 1 (by decide)
  exact ⟨by decide, h.2.1.trans (by decide), h.2.2.trans (by decide)⟩

/-- Claim C10: when a dataset's size `N` is not a multiple of `batch_size`,
only the first `(N / batch_size) * batch_size` instances are ever used:
the concatenation of all minibatches equals exactly that prefix, and the
trailing `N % batch_size` instances appear in no batch.  The same slicing
is used for the train, dev and test sets (lbl.py lines 157-160, 186-209,
212-222, 238). -/
theorem unused_trailing_instances {α : Type} (l : List α) (batch_size : ℕ)
    (_hbs : 0 < batch_size) :
    (allBatches l batch_size).flatten = l.take (nBatches l batch_size * batch_size) ∧
    nBatches l batch_size * batch_size + l.length % batch_size = l.length ∧
    (l.drop (nBatches l batch_size * batch_size)).length = l.length % batch_size := by
  have hd : nBatches l batch_size * batch_size + l.length % batch_size = l.length := by
    rw [nBatches, mul_comm]
    exact Nat.div_add_mod _ _
  refine ⟨range_map_batchSlice_flatten l batch_size _, hd, ?_⟩
  rw [List.length_drop]
  omega

/-- Witness for C10: five instances with batch size 2 yield two batches
covering exactly the first four instances; the fifth is never used. -/
theorem unused_trailing_instances_witness :
    (0 : ℕ) < 2 ∧ (allBatches [10, 11, 12, 13, 14] 2).flatten = [10, 11, 12, 13] ∧
    ([10, 11, 12, 13, 14].drop (nBatches [10, 11, 12, 13, 14] 2 * 2)).length = 1 := by
  have h := unused_trailing_instances [10, 11, 12, 13, 14] 2 (by decide)
  exact ⟨by decide, h.1.trans (by decide), h.2.2.trans (by decide)⟩

/-! ## The model's forward computation (lbl.py lines 80-98)

The four parameter tensors are `Fin`-indexed real-valued families:
`R Q : Fin V → Fin K → ℝ` (context and target embeddings),
`C : Fin n → Fin K → Fin K → ℝ` (per-position combination weights, with
`n` the context size) and `bias : Fin V → ℝ`.  A batch of contexts is a
matrix `context : Fin B → Fin n → Fin V` of word ids. -/

noncomputable section

/-- `r_w = self.R[context]` (lbl.py line 81): the embedding vectors of the
context words, shape `(batch, context_sz, K)`. -/
def r_w {V K n B : ℕ} (R : Fin V → Fin K → ℝ) (context : Fin B → Fin n → Fin V) :
    Fin B → Fin n → Fin K → ℝ :=
  fun i j k => R (context i j) k

/-- `q_hat = T.tensordot(self.C, self.r_w, axes=[[0,1],[1,2]])` (lbl.py
line 83): contract the context-position axis and the first `K` axis of `C`
against axes 1 and 2 of `r_w`; the remaining axes give shape `(K, batch)`. -/
def q_hat {K n B : ℕ} (C : Fin n → Fin K → Fin K → ℝ)
    (rwv : Fin B → Fin n → Fin K → ℝ) : Fin K → Fin B → ℝ :=
  fun k i => ∑ j, ∑ kp, C j kp k * rwv i j kp

/-- `s = T.dot(self.Q, self.q_hat) + T.reshape(self.b, (V,1))` (lbl.py
line 85): the score of every vocabulary word for every batch element,
shape `(V, batch)`; the bias column broadcasts along the batch axis. -/
def s_score {V K B : ℕ} (Q : Fin V → Fin K → ℝ) (bias : Fin V → ℝ)
    (qh : Fin K → Fin B → ℝ) : Fin V → Fin B → ℝ :=
  fun v i => (∑ k, Q v k * qh k i) + bias v

/-- `p_w_given_h = T.nnet.softmax(s)` (lbl.py line 87): Theano's softmax
normalizes each row of its 2-D argument, so row `v` (a vocabulary word) is
normalized across the batch axis of the `(V, batch)` score matrix. -/
def p_w_given_h {V B : ℕ} (s : Fin V → Fin B → ℝ) : Fin V → Fin B → ℝ :=
  fun v i => Real.exp (s v i) / ∑ ip, Real.exp (s v ip)

/-- The forward probability computation of `LogBilinearLanguageModel.__init__`
(lbl.py lines 80-87), composed from the four stages above. -/
def lblProb {V K n B : ℕ} (R Q : Fin V → Fin K → ℝ) (C : Fin n → Fin K → Fin K → ℝ)
    (bias : Fin V → ℝ) (context : Fin B → Fin n → Fin V) : Fin V → Fin B → ℝ :=
  p_w_given_h (s_score Q bias (q_hat C (r_w R context)))

/-- `negative_log_likelihood` (lbl.py lines 96-98):
`-T.mean(T.log2(T.transpose(self.p_w_given_h))[T.arange(y.shape[0]), y])`.
Entry `i` of the indexed vector is `log2 p[y i, i]` (the transpose swaps the
axes), and `T.mean` divides by the batch size. -/
def negative_log_likelihood {V B : ℕ} (p : Fin V → Fin B → ℝ) (y : Fin B → Fin V) : ℝ :=
  -((∑ i, Real.logb 2 (p (y i) i)) / (B : ℝ))

/-- The probability the model assigns to the true target of batch element
`i` — the spec's `p_true`. -/
def p_true {V B : ℕ} (p : Fin V → Fin B → ℝ) (y : Fin B → Fin V) : Fin B → ℝ :=
  fun i => p (y i) i

/-- `np.mean` of a list of reals, as used by `compute_dev_logp` and
`compute_test_logp` (lbl.py lines 212-219). -/
def np_mean (xs : List ℝ) : ℝ := xs.sum / (xs.length : ℝ)

/-- `compute_dev_logp()` / `compute_test_logp()` (lbl.py lines 212-219): the
mean over the evaluation batches of the model's `cost`
(`negative_log_likelihood`) on that batch; each batch supplies its own
context matrix and target vector. -/
def compute_logp {V K n B : ℕ} (R Q : Fin V → Fin K → ℝ) (C : Fin n → Fin K → Fin K → ℝ)
    (bias : Fin V → ℝ)
    (batches : List ((Fin B → Fin n → Fin V) × (Fin B → Fin V))) : ℝ :=
  np_mean (batches.map
    (fun xy => negative_log_likelihood (lblProb R Q C bias xy.1) xy.2))

/-- `compute_dev_ppl()` / `compute_test_ppl()` (lbl.py lines 215-222):
`np.power(2.0, compute_dev_logp())`. -/
def compute_ppl {V K n B : ℕ} (R Q : Fin V → Fin K → ℝ) (C : Fin n → Fin K → Fin K → ℝ)
    (bias : Fin V → ℝ)
    (batches : List ((Fin B → Fin n → Fin V) × (Fin B → Fin V))) : ℝ :=
  (2 : ℝ) ^ compute_logp R Q C bias batches

theorem p_w_given_h_pos {V B : ℕ} (s : Fin V → Fin B → ℝ) (v : Fin V) (i : Fin B) :
    0 < p_w_given_h s v i :=
  div_pos (Real.exp_pos _)
    (Finset.sum_pos (fun _ _ => Real.exp_pos _) ⟨i, Finset.mem_univ i⟩)

theorem p_w_given_h_le_one {V B : ℕ} (s : Fin V → Fin B → ℝ) (v : Fin V) (i : Fin B) :
    p_w_given_h s v i ≤ 1 := by
  rw [p_w_given_h, div_le_one (Finset.sum_pos (fun _ _ => Real.exp_pos _)
    ⟨i, Finset.mem_univ i⟩)]
  exact Finset.single_le_sum (fun j _ => (Real.exp_pos (s v j)).le) (Finset.mem_univ i)

theorem nll_nonneg {V B : ℕ} (s : Fin V → Fin B → ℝ) (y : Fin B → Fin V) :
    0 ≤ negative_log_likelihood (p_w_given_h s) y := by
  rw [negative_log_likelihood, neg_nonneg]
  apply div_nonpos_of_nonpos_of_nonneg
  · apply Finset.sum_nonpos
    intro i _
    exact Real.logb_nonpos (by norm_num) (p_w_given_h_pos s _ _).le
      (p_w_given_h_le_one s _ _)
  · exact Nat.cast_nonneg B

/-- Claim C4: `negative_log_likelihood(y)` equals `-mean(log2(p_true))`,
the negated mean of the base-2 log of the probability assigned to each
true target, and this value is non-negative.  (Non-negativity holds even
though the softmax normalizes the wrong axis — every entry of a row-wise
softmax still lies in `(0, 1]`.) -/
theorem negative_log_likelihood_spec {V K n B : ℕ} (R Q : Fin V → Fin K → ℝ)
    (C : Fin n → Fin K → Fin K → ℝ) (bias : Fin V → ℝ)
    (context : Fin B → Fin n → Fin V) (y : Fin B → Fin V) (_hB : 0 < B) :
    negative_log_likelihood (lblProb R Q C bias context) y
      = -((∑ i, Real.logb 2 (p_true (lblProb R Q C bias context) y i)) / (B : ℝ)) ∧
    0 ≤ negative_log_likelihood (lblProb R Q C bias context) y :=
  ⟨rfl, nll_nonneg (s_score Q bias (q_hat C (r_w R context))) y⟩

/-- Witness for C4: a concrete batch of size 1 over a one-word vocabulary
with all-zero parameters. -/
theorem negative_log_likelihood_spec_witness :
    (0 : ℕ) < 1 ∧
    0 ≤ negative_log_likelihood
      (lblProb (fun (_ : Fin 1) (_ : Fin 1) => (0 : ℝ))
        (fun (_ : Fin 1) (_ : Fin 1) => (0 : ℝ))
        (fun (_ : Fin 1) (_ : Fin 1) (_ : Fin 1) => (0 : ℝ))
        (fun (_ : Fin 1) => (0 : ℝ))
        (fun (_ : Fin 1) (_ : Fin 1) => (0 : Fin 1)))
      (fun (_ : Fin 1) => (0 : Fin 1)) :=
  ⟨by decide,
    (negative_log_likelihood_spec (fun (_ : Fin 1) (_ : Fin 1) => (0 : ℝ))
      (fun (_ : Fin 1) (_ : Fin 1) => (0 : ℝ))
      (fun (_ : Fin 1) (_ : Fin 1) (_ : Fin 1) => (0 : ℝ))
      (fun (_ : Fin 1) => (0 : ℝ))
      (fun (_ : Fin 1) (_ : Fin 1) => (0 : Fin 1))
      (fun (_ : Fin 1) => (0 : Fin 1)) (by decide)).2⟩

theorem compute_logp_nonneg {V K n B : ℕ} (R Q : Fin V → Fin K → ℝ)
    (C : Fin n → Fin K → Fin K → ℝ) (bias : Fin V → ℝ)
    (batches : List ((Fin B → Fin n → Fin V) × (Fin B → Fin V))) :
    0 ≤ compute_logp R Q C bias batches := by
  rw [compute_logp, np_mean]
  apply div_nonneg
  · apply List.sum_nonneg
    intro x hx
    simp only [List.mem_map] at hx
    obtain ⟨xy, _, rfl⟩ := hx
    exact nll_nonneg (s_score Q bias (q_hat C (r_w R xy.1))) xy.2
  · exact Nat.cast_nonneg _

/-- Claim C5: the dev and test perplexities computed at each checkpoint
equal `2` raised to the mean negative log-likelihood over the evaluation
batches, and every such perplexity is `≥ 1`. -/
theorem compute_ppl_spec {V K n B : ℕ} (R Q : Fin V → Fin K → ℝ)
    (C : Fin n → Fin K → Fin K → ℝ) (bias : Fin V → ℝ)
    (batches : List ((Fin B → Fin n → Fin V) × (Fin B → Fin V)))
    (_hne : batches ≠ []) :
    compute_ppl R Q C bias batches = (2 : ℝ) ^ compute_logp R Q C bias batches ∧
    1 ≤ compute_ppl R Q C bias batches := by
  refine ⟨rfl, ?_⟩
  rw [compute_ppl]
  exact Real.one_le_rpow (by norm_num) (compute_logp_nonneg R Q C bias batches)

/-- Witness for C5: a single evaluation batch of size 1 over a one-word
vocabulary with all-zero parameters. -/
theorem compute_ppl_spec_witness :
    1 ≤ compute_ppl (fun (_ : Fin 1) (_ : Fin 1) => (0 : ℝ))
      (fun (_ : Fin 1) (_ : Fin 1) => (0 : ℝ))
      (fun (_ : Fin 1) (_ : Fin 1) (_ : Fin 1) => (0 : ℝ))
      (fun (_ : Fin 1) => (0 : ℝ))
      [(fun (_ : Fin 1) (_ : Fin 1) => (0 : Fin 1), fun (_ : Fin 1) => (0 : Fin 1))] :=
  (compute_ppl_spec (fun (_ : Fin 1) (_ : Fin 1) => (0 : ℝ))
    (fun (_ : Fin 1) (_ : Fin 1) => (0 : ℝ))
    (fun (_ : Fin 1) (_ : Fin 1) (_ : Fin 1) => (0 : ℝ))
    (fun (_ : Fin 1) => (0 : ℝ))
    [(fun (_ : Fin 1) (_ : Fin 1) => (0 : Fin 1), fun (_ : Fin 1) => (0 : Fin 1))]
    (by simp)).2

/-- Claim C2 (refuted): the model's "probability distribution over the
vocabulary" does not sum to 1.  With vocabulary size `V = 2`, a single
context (`batch = 1`, `context_sz = 1`, `K = 1`) and all-zero parameters,
the per-word probabilities sum to `2`: `T.nnet.softmax` normalizes the
`(V, batch)` score matrix row-wise, i.e. across the batch axis, not across
the vocabulary. -/
theorem softmax_normalizes_batch_axis :
    ∑ v : Fin 2, lblProb (fun (_ : Fin 2) (_ : Fin 1) => (0 : ℝ))
      (fun (_ : Fin 2) (_ : Fin 1) => (0 : ℝ))
      (fun (_ : Fin 1) (_ : Fin 1) (_ : Fin 1) => (0 : ℝ))
      (fun (_ : Fin 2) => (0 : ℝ))
      (fun (_ : Fin 1) (_ : Fin 1) => (0 : Fin 2)) v 0 = 2 ∧ (2 : ℝ) ≠ 1 := by
  constructor
  · have h1 : ∀ v : Fin 2, lblProb (fun (_ : Fin 2) (_ : Fin 1) => (0 : ℝ))
        (fun (_ : Fin 2) (_ : Fin 1) => (0 : ℝ))
        (fun (_ : Fin 1) (_ : Fin 1) (_ : Fin 1) => (0 : ℝ))
        (fun (_ : Fin 2) => (0 : ℝ))
        (fun (_ : Fin 1) (_ : Fin 1) => (0 : Fin 2)) v 0 = 1 := by
      intro v
      rw [lblProb, p_w_given_h]
      rw [Fin.sum_univ_one]
      exact div_self (Real.exp_ne_zero _)
    rw [Fin.sum_univ_two, h1 0, h1 1]
    norm_num
  · norm_num

end

/-! ## `LogBilinearLanguageModel.errors` (lbl.py lines 101-112) -/

/-- Python's `str.startswith(prefix)`, used by the dtype check
`y.dtype.startswith('int')` at lbl.py line 107.  (Defined over the
character list so that it evaluates by kernel reduction.) -/
def startswith (s p : String) : Bool :=
  s.toList.take p.toList.length == p.toList

/-- `T.mean(T.neq(self.y_pred, y))` (lbl.py line 110): the fraction of
positions where prediction and label differ. -/
def neqMean (y_pred y : List ℤ) : ℚ :=
  (((y_pred.zip y).countP (fun ab => ab.1 != ab.2) : ℕ) : ℚ)
    / (((y_pred.zip y).length : ℕ) : ℚ)

/-- `errors(y)` (lbl.py lines 101-112).  A dimension mismatch raises a
`TypeError` (line 104; evaluating the raise's argument tuple dereferences
the undefined name `target`, so a `NameError` surfaces first — fatal
either way); a dtype whose name does not start with `'int'` raises
`NotImplementedError` (line 112); otherwise the mean prediction error is
returned. -/
def errors (y_pred_ndim y_ndim : ℕ) (y_dtype : String) (y_pred y : List ℤ) :
    Except String ℚ :=
  if y_ndim ≠ y_pred_ndim then
    .error "TypeError: y should have the same shape as self.y_pred"
  else if startswith y_dtype "int" then
    .ok (neqMean y_pred y)
  else
    .error "NotImplementedError"

/-- Whether the call raised a fatal error. -/
def isFatal (r : Except String ℚ) : Bool :=
  match r with
  | .error _ => true
  | .ok _ => false

/-- Modelled from the spec's words "y's dtype is not an integer type": the
names of numpy's integer dtypes, which include the unsigned ones. -/
def specIntegerDtype (d : String) : Bool :=
  (d == "int8") || (d == "int16") || (d == "int32") || (d == "int64") ||
  (d == "uint8") || (d == "uint16") || (d == "uint32") || (d == "uint64")

theorem countP_zip_self_ne (l : List ℤ) :
    (l.zip l).countP (fun ab => ab.1 != ab.2) = 0 := by
  induction l with
  | nil => rfl
  | cons a t ih => simp [List.zip_cons_cons, List.countP_cons, ih]

theorem neqMean_nonneg (a b : List ℤ) : 0 ≤ neqMean a b := by
  rw [neqMean]
  exact div_nonneg (Nat.cast_nonneg _) (Nat.cast_nonneg _)

theorem neqMean_le_one (a b : List ℤ) : neqMean a b ≤ 1 := by
  rw [neqMean]
  rcases Nat.eq_zero_or_pos (a.zip b).length with h0 | hpos
  · rw [h0]
    norm_num
  · rw [div_le_one (by exact_mod_cast hpos)]
    exact_mod_cast List.countP_le_length _

/-- Claim C8 (amended): `errors(y)` fails with a fatal error exactly when
`y`'s number of dimensions differs from `y_pred`'s or `y`'s dtype does not
start with `'int'` (so unsigned integer dtypes are also fatal); otherwise
it returns the fraction of predictions differing from `y`, which lies in
`[0, 1]` and equals `0` when predictions exactly match the labels. -/
theorem errors_spec (y_pred_ndim y_ndim : ℕ) (y_dtype : String)
    (y_pred y : List ℤ) :
    (isFatal (errors y_pred_ndim y_ndim y_dtype y_pred y) = true
      ↔ (y_ndim ≠ y_pred_ndim ∨ startswith y_dtype "int" = false)) ∧
    (∀ q : ℚ, errors y_pred_ndim y_ndim y_dtype y_pred y = .ok q →
      0 ≤ q ∧ q ≤ 1) ∧
    (∀ q : ℚ, y_pred = y → errors y_pred_ndim y_ndim y_dtype y_pred y = .ok q →
      q = 0) := by
  refine ⟨?_, ?_, ?_⟩
  · by_cases hnd : y_ndim ≠ y_pred_ndim <;>
      by_cases hdt : startswith y_dtype "int" = true <;>
      simp [errors, hnd, hdt, isFatal]
  · intro q hq
    have h : q = neqMean y_pred y := by
      rw [errors] at hq
      split_ifs at hq
      all_goals simp_all
    rw [h]
    exact ⟨neqMean_nonneg _ _, neqMean_le_one _ _⟩
  · intro q hpy hq
    have h : q = neqMean y_pred y := by
      rw [errors] at hq
      split_ifs at hq
      all_goals simp_all
    rw [h, hpy, neqMean, countP_zip_self_ne]
    norm_num

/-- Witness for C8 (amended): a successful call with integer dtype and one
of two predictions wrong is bounded by `[0, 1]`. -/
theorem errors_spec_witness :
    0 ≤ neqMean [3, 4] [3, 5] ∧ neqMean [3, 4] [3, 5] ≤ 1 :=
  (errors_spec 1 1 "int32" [3, 4] [3, 5]).2.1 (neqMean [3, 4] [3, 5]) rfl

/-- Counterexample to C8 as stated: `uint32` is a numpy integer dtype, and
the dimensions agree, yet `errors` is fatal (it raises
`NotImplementedError`), because the code tests `startswith('int')` rather
than integer-ness. -/
theorem errors_rejects_unsigned_integer_dtype :
    isFatal (errors 1 1 "uint32" [0] [0]) = true ∧
    specIntegerDtype "uint32" = true := by
  decide

/-! ## The training loop of `train_lbl` (lbl.py lines 134-295)

The loop is embedded as a state-passing recursion.  The values produced by
the compiled Theano evaluation functions depend only on the model
parameters, i.e. on the number of gradient updates performed so far, so
`compute_dev_ppl()` and `compute_test_ppl()` are supplied as oracles
indexed by that count.  `np.inf` (the initial value of `best_dev_ppl` and
`last_epoch_dev_ppl`, lbl.py lines 227-229) is modelled as `Option.none`.

The two statements at lbl.py lines 251-252
(`validation_losses = [validate_model(i) for i in xrange(n_valid_batches)]`
and `this_validation_loss = numpy.mean(validation_losses)`) reference the
undefined names `validate_model`, `n_valid_batches` and `numpy`: the
definition of `validate_model` (lines 192-195) is commented out, the batch
count is named `n_dev_batches`, and numpy is imported as `np`.  In Python
they therefore raise a `NameError` the first time the enclosing validation
block runs; had the names been defined, they would only have computed and
logged a value without changing any training state.  The embedding elides
that crash and instead counts executions of the enclosing validation block
in the ghost field `checkpoints`; claim C1 concerns exactly this defect. -/

/-- One entry of the (ghost) trace of processed minibatches: the iteration
number `itr`, the patience value at the early-stopping check at the end of
that minibatch (lbl.py line 270), and whether the check fired. -/
structure TraceEntry where
  itr : ℕ
  pat : Option ℤ
  stop : Bool
deriving DecidableEq

/-- The configuration of `train_lbl`: loop parameters plus the two
perplexity oracles (functions of the number of gradient updates done). -/
structure TrainConfig where
  nTrainBatches : ℕ
  epochs : ℕ
  validationFreq : ℕ
  rateUpdate : String
  learnRate0 : ℚ
  patience0 : Option ℤ
  patienceIncr : ℤ
  improvementThrs : ℚ
  devPplOracle : ℕ → ℚ
  testPplOracle : ℕ → ℚ

/-- The mutable state of the training loop, plus ghost observation fields
(`updates`, `checkpoints`, `epochsStarted`, `trace`). -/
structure TrainState where
  learning_rate : ℚ
  last_epoch_dev_ppl : Option ℚ
  best_dev_ppl : Option ℚ
  test_ppl : Option ℚ
  patience : Option ℤ
  done_looping : Bool
  raisedError : Option String
  updates : ℕ
  checkpoints : ℕ
  epochsStarted : ℕ
  trace : List TraceEntry

/-- The trainer state before the epoch loop (lbl.py lines 226-232). -/
def initState (cfg : TrainConfig) : TrainState :=
  { learning_rate := cfg.learnRate0
    last_epoch_dev_ppl := none
    best_dev_ppl := none
    test_ppl := none
    patience := cfg.patience0
    done_looping := false
    raisedError := none
    updates := 0
    checkpoints := 0
    epochsStarted := 0
    trace := [] }

/-- Python truthiness of `patience` (`if patience and ...`, lbl.py lines
259 and 270): `None` and `0` are both falsy. -/
def patienceTruthy : Option ℤ → Bool
  | none => false
  | some z => z != 0

/-- `patience <= itr` (lbl.py line 270). -/
def patienceLe : Option ℤ → ℕ → Bool
  | none, _ => false
  | some z, itr => decide (z ≤ (itr : ℤ))

/-- `dev_ppl < best_dev_ppl` (lbl.py line 257) with `best_dev_ppl`
possibly `np.inf` (`none`): every float is below infinity. -/
def qLtInf (q : ℚ) : Option ℚ → Bool
  | none => true
  | some b => decide (q < b)

/-- `dev_ppl < best_dev_ppl * improvement_thrs` (lbl.py line 259) with
`best_dev_ppl` possibly `np.inf`: `inf * thrs` is `inf` for positive
`thrs` (so the comparison holds) and `nan` resp. `-inf` for zero resp.
negative `thrs` (so it fails). -/
def qLtMulInf (q : ℚ) (best : Option ℚ) (thrs : ℚ) : Bool :=
  match best with
  | none => decide (0 < thrs)
  | some b => decide (q < b * thrs)

/-- `this_epoch_dev_ppl > last_epoch_dev_ppl` (lbl.py line 280) with
`last_epoch_dev_ppl` possibly `np.inf` (its initial value): no float
exceeds infinity. -/
def qGtOpt (q : ℚ) : Option ℚ → Bool
  | none => false
  | some b => decide (b < q)

/-- The validation checkpoint (lbl.py lines 242-268), entered when
`itr % validation_freq == 0`: compute the dev perplexity; if it beats the
best so far then — when patience is truthy and the improvement is
significant — grow the patience to `max(patience, itr * patience_incr)`
(line 260), record the new best, and recompute the test perplexity
(lines 261-268).  The ghost counter `checkpoints` records that the block
(including the defective lines 251-252) ran. -/
def checkpointStep (cfg : TrainConfig) (itr : ℕ) (st : TrainState) : TrainState :=
  let dev_ppl := cfg.devPplOracle st.updates
  let st1 := { st with checkpoints := st.checkpoints + 1 }
  if qLtInf dev_ppl st1.best_dev_ppl then
    let pat := if patienceTruthy st1.patience
        && qLtMulInf dev_ppl st1.best_dev_ppl cfg.improvementThrs then
        some (max (st1.patience.getD 0) ((itr : ℤ) * cfg.patienceIncr))
      else st1.patience
    { st1 with patience := pat,
               best_dev_ppl := some dev_ppl,
               test_ppl := some (cfg.testPplOracle st1.updates) }
  else st1

/-- One minibatch step (lbl.py lines 239-270): run `train_model` (one
gradient update, counted by `updates`), enter the validation checkpoint
when `itr % validation_freq == 0`, then evaluate the early-stopping
condition `patience and patience <= itr` (line 270).  Returns the new
state (with the processed minibatch appended to the ghost trace) and the
stop decision. -/
def batchStep (cfg : TrainConfig) (e mb : ℕ) (st : TrainState) : TrainState × Bool :=
  let st1 := { st with updates := st.updates + 1 }
  let itr := e * cfg.nTrainBatches + mb
  let st2 := if itr % cfg.validationFreq == 0 then checkpointStep cfg itr st1 else st1
  let stop := patienceTruthy st2.patience && patienceLe st2.patience itr
  ({ st2 with trace := st2.trace ++ [⟨itr, st2.patience, stop⟩] }, stop)

/-- The minibatch loop (lbl.py lines 238-272), recursing over the `r`
remaining minibatch indices starting at `mb`: each step is `batchStep`,
and a positive stop decision sets `done_looping` and breaks (lines
271-272). -/
def runBatches (cfg : TrainConfig) (e : ℕ) : ℕ → ℕ → TrainState → TrainState
  | _, 0, st => st
  | mb, r + 1, st =>
    let p := batchStep cfg e mb st
    if p.2 then { p.1 with done_looping := true }
    else runBatches cfg e (mb + 1) r p.1

/-- One epoch's body: the minibatch loop followed by the learning-rate
update (lbl.py lines 238-287).  The rate update also runs after an
early-stopping `break`, since it sits in the epoch loop's body after the
inner loop; an unknown strategy raises `ValueError` (line 287). -/
def runEpochBody (cfg : TrainConfig) (e : ℕ) (st : TrainState) : TrainState :=
  let st1 := runBatches cfg e 0 cfg.nTrainBatches st
  if cfg.rateUpdate = "simple" then
    { st1 with learning_rate := 1 / ((e : ℚ) + 1) }
  else if cfg.rateUpdate = "adaptive" then
    let this_epoch_dev_ppl := cfg.devPplOracle st1.updates
    let lr := if qGtOpt this_epoch_dev_ppl st1.last_epoch_dev_ppl then
        st1.learning_rate / 2
      else st1.learning_rate
    { st1 with learning_rate := lr, last_epoch_dev_ppl := some this_epoch_dev_ppl }
  else if cfg.rateUpdate = "constant" then st1
  else
    let msg := "Unknown learning rate update strategy: " ++ cfg.rateUpdate
    { st1 with raisedError := some msg }

/-- The epoch loop (lbl.py lines 234-287): up to `r` more epochs starting
at epoch index `e`; an iteration stops at its top when `done_looping` is
set, and the loop is abandoned when the body raised. -/
def runEpochs (cfg : TrainConfig) : ℕ → ℕ → TrainState → TrainState
  | _, 0, st => st
  | e, r + 1, st =>
    if st.done_looping then st
    else
      let st1 := runEpochBody cfg e { st with epochsStarted := st.epochsStarted + 1 }
      if st1.raisedError.isSome then st1
      else runEpochs cfg (e + 1) r st1

/-- `train_lbl` (lbl.py lines 134-295) from the point where data and model
have been prepared: the full training loop. -/
def train_lbl (cfg : TrainConfig) : TrainState :=
  runEpochs cfg 0 cfg.epochs (initState cfg)

/-- `tr` has `stop` set at most at its final entry: once the
early-stopping check fires, no later minibatch is processed. -/
def stopOnlyLast : List TraceEntry → Bool
  | [] => true
  | [_] => true
  | en :: rest => !en.stop && stopOnlyLast rest

/-! ### Field bookkeeping lemmas for the loop embedding -/

theorem checkpointStep_fields (cfg : TrainConfig) (itr : ℕ) (st : TrainState) :
    (checkpointStep cfg itr st).learning_rate = st.learning_rate ∧
    (checkpointStep cfg itr st).last_epoch_dev_ppl = st.last_epoch_dev_ppl ∧
    (checkpointStep cfg itr st).raisedError = st.raisedError ∧
    (checkpointStep cfg itr st).epochsStarted = st.epochsStarted ∧
    (checkpointStep cfg itr st).done_looping = st.done_looping ∧
    (checkpointStep cfg itr st).trace = st.trace ∧
    (checkpointStep cfg itr st).updates = st.updates ∧
    (checkpointStep cfg itr st).checkpoints = st.checkpoints + 1 := by
  simp only [checkpointStep]
  split
  · exact ⟨rfl, rfl, rfl, rfl, rfl, rfl, rfl, rfl⟩
  · exact ⟨rfl, rfl, rfl, rfl, rfl, rfl, rfl, rfl⟩

theorem batchStep_basic (cfg : TrainConfig) (e mb : ℕ) (st : TrainState) :
    (batchStep cfg e mb st).1.learning_rate = st.learning_rate ∧
    (batchStep cfg e mb st).1.last_epoch_dev_ppl = st.last_epoch_dev_ppl ∧
    (batchStep cfg e mb st).1.raisedError = st.raisedError ∧
    (batchStep cfg e mb st).1.epochsStarted = st.epochsStarted ∧
    (batchStep cfg e mb st).1.done_looping = st.done_looping ∧
    st.checkpoints ≤ (batchStep cfg e mb st).1.checkpoints := by
  simp only [batchStep]
  split
  · refine ⟨?_, ?_, ?_, ?_, ?_, ?_⟩ <;>
      simp [checkpointStep_fields cfg (e * cfg.nTrainBatches + mb) _]
  · exact ⟨rfl, rfl, rfl, rfl, rfl, le_refl _⟩

theorem batchStep_trace (cfg : TrainConfig) (e mb : ℕ) (st : TrainState) :
    (batchStep cfg e mb st).1.trace
      = st.trace ++ [⟨e * cfg.nTrainBatches + mb, (batchStep cfg e mb st).1.patience,
          (batchStep cfg e mb st).2⟩] := by
  simp only [batchStep]
  split
  · simp [checkpointStep_fields cfg (e * cfg.nTrainBatches + mb) _]
  · rfl

theorem batchStep_stop_eq (cfg : TrainConfig) (e mb : ℕ) (st : TrainState) :
    (batchStep cfg e mb st).2
      = (patienceTruthy (batchStep cfg e mb st).1.patience
          && patienceLe (batchStep cfg e mb st).1.patience
            (e * cfg.nTrainBatches + mb)) := rfl

theorem checkpointStep_patience_ge (cfg : TrainConfig) (itr : ℕ) (st : TrainState)
    (q : ℤ) (hq : st.patience = some q) :
    ∃ q2, (checkpointStep cfg itr st).patience = some q2 ∧ q ≤ q2 := by
  simp only [checkpointStep]
  split
  · split
    · exact ⟨_, rfl, by simp [hq, le_max_left]⟩
    · exact ⟨q, hq, le_refl q⟩
  · exact ⟨q, hq, le_refl q⟩

theorem batchStep_patience_ge (cfg : TrainConfig) (e mb : ℕ) (st : TrainState)
    (q : ℤ) (hq : st.patience = some q) :
    ∃ q2, (batchStep cfg e mb st).1.patience = some q2 ∧ q ≤ q2 := by
  simp only [batchStep]
  split
  · exact checkpointStep_patience_ge cfg _ _ q hq
  · exact ⟨q, hq, le_refl q⟩

theorem checkpointStep_patience_none (cfg : TrainConfig) (itr : ℕ) (st : TrainState)
    (hq : st.patience = none) : (checkpointStep cfg itr st).patience = none := by
  simp only [checkpointStep]
  split
  · simp [hq, patienceTruthy]
  · exact hq

theorem batchStep_patience_none (cfg : TrainConfig) (e mb : ℕ) (st : TrainState)
    (hq : st.patience = none) :
    (batchStep cfg e mb st).1.patience = none ∧ (batchStep cfg e mb st).2 = false := by
  have hp : (batchStep cfg e mb st).1.patience = none := by
    simp only [batchStep]
    split
    · exact checkpointStep_patience_none cfg _ _ hq
    · exact hq
  refine ⟨hp, ?_⟩
  rw [batchStep_stop_eq, hp]
  rfl

theorem runBatches_preserves (cfg : TrainConfig) (e : ℕ) :
    ∀ (r mb : ℕ) (st : TrainState),
      (runBatches cfg e mb r st).learning_rate = st.learning_rate ∧
      (runBatches cfg e mb r st).last_epoch_dev_ppl = st.last_epoch_dev_ppl ∧
      (runBatches cfg e mb r st).raisedError = st.raisedError ∧
      (runBatches cfg e mb r st).epochsStarted = st.epochsStarted := by
  intro r
  induction r with
  | zero => exact fun mb st => ⟨rfl, rfl, rfl, rfl⟩
  | succ r ih =>
    intro mb st
    obtain ⟨h1, h2, h3, h4, h5, h6⟩ := batchStep_basic cfg e mb st
    simp only [runBatches]
    split
    · exact ⟨h1, h2, h3, h4⟩
    · have h := ih (mb + 1) (batchStep cfg e mb st).1
      exact ⟨h.1.trans h1, h.2.1.trans h2, h.2.2.1.trans h3, h.2.2.2.trans h4⟩

theorem runBatches_checkpoints_mono (cfg : TrainConfig) (e : ℕ) :
    ∀ (r mb : ℕ) (st : TrainState),
      st.checkpoints ≤ (runBatches cfg e mb r st).checkpoints := by
  intro r
  induction r with
  | zero => exact fun mb st => le_refl _
  | succ r ih =>
    intro mb st
    obtain ⟨-, -, -, -, -, h6⟩ := batchStep_basic cfg e mb st
    simp only [runBatches]
    split
    · exact h6
    · exact h6.trans (ih (mb + 1) (batchStep cfg e mb st).1)

theorem runEpochBody_fields (cfg : TrainConfig) (e : ℕ) (st : TrainState) :
    (runEpochBody cfg e st).patience
      = (runBatches cfg e 0 cfg.nTrainBatches st).patience ∧
    (runEpochBody cfg e st).done_looping
      = (runBatches cfg e 0 cfg.nTrainBatches st).done_looping ∧
    (runEpochBody cfg e st).trace
      = (runBatches cfg e 0 cfg.nTrainBatches st).trace ∧
    (runEpochBody cfg e st).checkpoints
      = (runBatches cfg e 0 cfg.nTrainBatches st).checkpoints ∧
    (runEpochBody cfg e st).updates
      = (runBatches cfg e 0 cfg.nTrainBatches st).updates ∧
    (runEpochBody cfg e st).epochsStarted
      = (runBatches cfg e 0 cfg.nTrainBatches st).epochsStarted := by
  simp only [runEpochBody]
  split_ifs <;> exact ⟨rfl, rfl, rfl, rfl, rfl, rfl⟩

theorem runEpochBody_raised_of_valid (cfg : TrainConfig) (e : ℕ) (st : TrainState)
    (hvalid : cfg.rateUpdate = "simple" ∨ cfg.rateUpdate = "adaptive"
      ∨ cfg.rateUpdate = "constant") :
    (runEpochBody cfg e st).raisedError
      = (runBatches cfg e 0 cfg.nTrainBatches st).raisedError := by
  rcases hvalid with h | h | h <;> simp [runEpochBody, h]

theorem runEpochs_checkpoints_mono (cfg : TrainConfig) :
    ∀ (r e : ℕ) (st : TrainState),
      st.checkpoints ≤ (runEpochs cfg e r st).checkpoints := by
  intro r
  induction r with
  | zero => exact fun e st => le_refl _
  | succ r ih =>
    intro e st
    simp only [runEpochs]
    split
    · exact le_refl _
    · have hbase : st.checkpoints
          ≤ (runEpochBody cfg e { st with epochsStarted := st.epochsStarted + 1 }).checkpoints := by
        rw [(runEpochBody_fields cfg e _).2.2.2.1]
        exact runBatches_checkpoints_mono cfg e cfg.nTrainBatches 0
          { st with epochsStarted := st.epochsStarted + 1 }
      split
      · exact hbase
      · exact hbase.trans (ih (e + 1) _)

/-! ### Invariant lemmas for the early-stopping trace -/

theorem stopOnlyLast_of_all_not_stop :
    ∀ tr : List TraceEntry, (∀ en ∈ tr, en.stop = false) → stopOnlyLast tr = true
  | [], _ => rfl
  | [_], _ => rfl
  | en :: en2 :: t, h => by
    have ht := stopOnlyLast_of_all_not_stop (en2 :: t)
      (fun x hx => h x (List.mem_cons_of_mem _ hx))
    have he := h en (List.mem_cons_self _ _)
    simp [stopOnlyLast, he, ht]

theorem stopOnlyLast_append_last :
    ∀ (tr : List TraceEntry) (en2 : TraceEntry),
      (∀ en ∈ tr, en.stop = false) → stopOnlyLast (tr ++ [en2]) = true
  | [], _, _ => rfl
  | a :: t, en2, h => by
    have ht := stopOnlyLast_append_last t en2
      (fun x hx => h x (List.mem_cons_of_mem _ hx))
    have ha := h a (List.mem_cons_self _ _)
    cases t with
    | nil => simp [stopOnlyLast, ha]
    | cons b t2 =>
      simp only [List.cons_append] at ht ⊢
      simp [stopOnlyLast, ha, ht]

theorem runBatches_stopOnlyLast (cfg : TrainConfig) (e : ℕ) :
    ∀ (r mb : ℕ) (st : TrainState), st.done_looping = false →
      (∀ en ∈ st.trace, en.stop = false) →
      stopOnlyLast (runBatches cfg e mb r st).trace = true ∧
      ((runBatches cfg e mb r st).done_looping = false →
        ∀ en ∈ (runBatches cfg e mb r st).trace, en.stop = false) := by
  intro r
  induction r with
  | zero => exact fun mb st _ h => ⟨stopOnlyLast_of_all_not_stop _ h, fun _ => h⟩
  | succ r ih =>
    intro mb st hd h
    have hbasic := batchStep_basic cfg e mb st
    have htr := batchStep_trace cfg e mb st
    simp only [runBatches]
    split
    · rename_i hs
      constructor
      · show stopOnlyLast (batchStep cfg e mb st).1.trace = true
        rw [htr]
        exact stopOnlyLast_append_last _ _ h
      · intro hcontra
        exact absurd hcontra (by simp)
    · rename_i hs
      have hs' : (batchStep cfg e mb st).2 = false := by
        cases hval : (batchStep cfg e mb st).2
        · rfl
        · exact absurd hval hs
      refine ih (mb + 1) (batchStep cfg e mb st).1 ?_ ?_
      · rw [hbasic.2.2.2.2.1]
        exact hd
      · intro en hen
        rw [htr] at hen
        rcases List.mem_append.mp hen with hold | hnew
        · exact h en hold
        · rcases List.mem_singleton.mp hnew with rfl
          exact hs'

theorem runBatches_entries (cfg : TrainConfig) (e : ℕ) :
    ∀ (r mb : ℕ) (st : TrainState),
      (∀ en ∈ st.trace,
        en.stop = (patienceTruthy en.pat && patienceLe en.pat en.itr)) →
      ∀ en ∈ (runBatches cfg e mb r st).trace,
        en.stop = (patienceTruthy en.pat && patienceLe en.pat en.itr) := by
  intro r
  induction r with
  | zero => exact fun mb st h => h
  | succ r ih =>
    intro mb st h
    have htr := batchStep_trace cfg e mb st
    have hext : ∀ en ∈ (batchStep cfg e mb st).1.trace,
        en.stop = (patienceTruthy en.pat && patienceLe en.pat en.itr) := by
      intro en hen
      rw [htr] at hen
      rcases List.mem_append.mp hen with hold | hnew
      · exact h en hold
      · rcases List.mem_singleton.mp hnew with rfl
        exact batchStep_stop_eq cfg e mb st
    simp only [runBatches]
    split
    · exact hext
    · exact ih (mb + 1) (batchStep cfg e mb st).1 hext

theorem runBatches_patience_ge (cfg : TrainConfig) (e : ℕ) (P : ℤ) :
    ∀ (r mb : ℕ) (st : TrainState) (q : ℤ), st.patience = some q → P ≤ q →
      (∀ en ∈ st.trace, ∃ q2, en.pat = some q2 ∧ P ≤ q2) →
      (∃ q2, (runBatches cfg e mb r st).patience = some q2 ∧ P ≤ q2) ∧
      ∀ en ∈ (runBatches cfg e mb r st).trace, ∃ q2, en.pat = some q2 ∧ P ≤ q2 := by
  intro r
  induction r with
  | zero => exact fun mb st q hq hle h => ⟨⟨q, hq, hle⟩, h⟩
  | succ r ih =>
    intro mb st q hq hle h
    obtain ⟨q2, hq2, hle2⟩ := batchStep_patience_ge cfg e mb st q hq
    have htr := batchStep_trace cfg e mb st
    have hext : ∀ en ∈ (batchStep cfg e mb st).1.trace,
        ∃ q3, en.pat = some q3 ∧ P ≤ q3 := by
      intro en hen
      rw [htr] at hen
      rcases List.mem_append.mp hen with hold | hnew
      · exact h en hold
      · rcases List.mem_singleton.mp hnew with rfl
        exact ⟨q2, hq2, hle.trans hle2⟩
    simp only [runBatches]
    split
    · exact ⟨⟨q2, hq2, hle.trans hle2⟩, hext⟩
    · exact ih (mb + 1) (batchStep cfg e mb st).1 q2 hq2 (hle.trans hle2) hext

theorem runBatches_patience_none (cfg : TrainConfig) (e : ℕ) :
    ∀ (r mb : ℕ) (st : TrainState), st.patience = none →
      (runBatches cfg e mb r st).patience = none ∧
      (runBatches cfg e mb r st).done_looping = st.done_looping ∧
      (runBatches cfg e mb r st).trace.length = st.trace.length + r := by
  intro r
  induction r with
  | zero => exact fun mb st h => ⟨h, rfl, rfl⟩
  | succ r ih =>
    intro mb st h
    obtain ⟨hp, hs⟩ := batchStep_patience_none cfg e mb st h
    have htr := batchStep_trace cfg e mb st
    have hlen : (batchStep cfg e mb st).1.trace.length = st.trace.length + 1 := by
      rw [htr, List.length_append]
      rfl
    simp only [runBatches]
    split
    · rename_i hcontra
      rw [hs] at hcontra
      exact absurd hcontra (by simp)
    · have hrec := ih (mb + 1) (batchStep cfg e mb st).1 hp
      refine ⟨hrec.1, ?_, ?_⟩
      · rw [hrec.2.1, (batchStep_basic cfg e mb st).2.2.2.2.1]
      · rw [hrec.2.2, hlen]
        omega

theorem runEpochs_stopOnlyLast (cfg : TrainConfig) :
    ∀ (r e : ℕ) (st : TrainState),
      stopOnlyLast st.trace = true →
      (st.done_looping = false → ∀ en ∈ st.trace, en.stop = false) →
      stopOnlyLast (runEpochs cfg e r st).trace = true ∧
      ((runEpochs cfg e r st).done_looping = false →
        ∀ en ∈ (runEpochs cfg e r st).trace, en.stop = false) := by
  intro r
  induction r with
  | zero => exact fun e st h1 h2 => ⟨h1, h2⟩
  | succ r ih =>
    intro e st h1 h2
    simp only [runEpochs]
    split
    · exact ⟨h1, h2⟩
    · rename_i hdone
      have hdone' : st.done_looping = false := by
        cases hval : st.done_looping
        · rfl
        · exact absurd hval hdone
      have hb := runBatches_stopOnlyLast cfg e cfg.nTrainBatches 0
        { st with epochsStarted := st.epochsStarted + 1 } hdone' (h2 hdone')
      have hf := runEpochBody_fields cfg e { st with epochsStarted := st.epochsStarted + 1 }
      have h1' : stopOnlyLast
          (runEpochBody cfg e { st with epochsStarted := st.epochsStarted + 1 }).trace
            = true := by
        rw [hf.2.2.1]
        exact hb.1
      have h2' : (runEpochBody cfg e
            { st with epochsStarted := st.epochsStarted + 1 }).done_looping = false →
          ∀ en ∈ (runEpochBody cfg e
            { st with epochsStarted := st.epochsStarted + 1 }).trace,
            en.stop = false := by
        rw [hf.2.1, hf.2.2.1]
        exact hb.2
      split
      · exact ⟨h1', h2'⟩
      · exact ih (e + 1) _ h1' h2'

theorem runEpochs_entries (cfg : TrainConfig) :
    ∀ (r e : ℕ) (st : TrainState),
      (∀ en ∈ st.trace,
        en.stop = (patienceTruthy en.pat && patienceLe en.pat en.itr)) →
      ∀ en ∈ (runEpochs cfg e r st).trace,
        en.stop = (patienceTruthy en.pat && patienceLe en.pat en.itr) := by
  intro r
  induction r with
  | zero => exact fun e st h => h
  | succ r ih =>
    intro e st h
    simp only [runEpochs]
    split
    · exact h
    · have hf := runEpochBody_fields cfg e { st with epochsStarted := st.epochsStarted + 1 }
      have hext : ∀ en ∈ (runEpochBody cfg e
          { st with epochsStarted := st.epochsStarted + 1 }).trace,
          en.stop = (patienceTruthy en.pat && patienceLe en.pat en.itr) := by
        rw [hf.2.2.1]
        exact runBatches_entries cfg e cfg.nTrainBatches 0 _ h
      split
      · exact hext
      · exact ih (e + 1) _ hext

theorem runEpochs_patience_ge (cfg : TrainConfig) (P : ℤ) :
    ∀ (r e : ℕ) (st : TrainState) (q : ℤ), st.patience = some q → P ≤ q →
      (∀ en ∈ st.trace, ∃ q2, en.pat = some q2 ∧ P ≤ q2) →
      ∀ en ∈ (runEpochs cfg e r st).trace, ∃ q2, en.pat = some q2 ∧ P ≤ q2 := by
  intro r
  induction r with
  | zero => exact fun e st q _ _ h => h
  | succ r ih =>
    intro e st q hq hle h
    simp only [runEpochs]
    split
    · exact h
    · have hf := runEpochBody_fields cfg e { st with epochsStarted := st.epochsStarted + 1 }
      have hb := runBatches_patience_ge cfg e P cfg.nTrainBatches 0
        { st with epochsStarted := st.epochsStarted + 1 } q hq hle h
      obtain ⟨⟨q2, hq2, hle2⟩, hall⟩ := hb
      have hq2' : (runEpochBody cfg e
          { st with epochsStarted := st.epochsStarted + 1 }).patience = some q2 := by
        rw [hf.1]
        exact hq2
      have hall' : ∀ en ∈ (runEpochBody cfg e
          { st with epochsStarted := st.epochsStarted + 1 }).trace,
          ∃ q3, en.pat = some q3 ∧ P ≤ q3 := by
        rw [hf.2.2.1]
        exact hall
      split
      · exact hall'
      · exact ih (e + 1) _ q2 hq2' hle2 hall'

theorem runEpochs_patience_none (cfg : TrainConfig) :
    ∀ (r e : ℕ) (st : TrainState), st.patience = none → st.done_looping = false →
      st.raisedError = none →
      (runEpochs cfg e r st).patience = none ∧
      (runEpochs cfg e r st).done_looping = false ∧
      ((cfg.rateUpdate = "simple" ∨ cfg.rateUpdate = "adaptive"
          ∨ cfg.rateUpdate = "constant") →
        (runEpochs cfg e r st).raisedError = none ∧
        (runEpochs cfg e r st).trace.length
          = st.trace.length + r * cfg.nTrainBatches) := by
  intro r
  induction r with
  | zero => exact fun e st h hd hr => ⟨h, hd, fun _ => ⟨hr, by simp [runEpochs]⟩⟩
  | succ r ih =>
    intro e st h hd hr
    simp only [runEpochs]
    split
    · rename_i hcontra
      rw [hd] at hcontra
      exact absurd hcontra (by simp)
    · have hf := runEpochBody_fields cfg e { st with epochsStarted := st.epochsStarted + 1 }
      have hb := runBatches_patience_none cfg e cfg.nTrainBatches 0
        { st with epochsStarted := st.epochsStarted + 1 } h
      have hpres := runBatches_preserves cfg e cfg.nTrainBatches 0
        { st with epochsStarted := st.epochsStarted + 1 }
      have hp1 : (runEpochBody cfg e
          { st with epochsStarted := st.epochsStarted + 1 }).patience = none := by
        rw [hf.1]
        exact hb.1
      have hd1 : (runEpochBody cfg e
          { st with epochsStarted := st.epochsStarted + 1 }).done_looping = false := by
        rw [hf.2.1, hb.2.1]
        exact hd
      have hl1 : (runEpochBody cfg e
          { st with epochsStarted := st.epochsStarted + 1 }).trace.length
            = st.trace.length + cfg.nTrainBatches := by
        rw [hf.2.2.1, hb.2.2]
      have hrec := ih (e + 1) _ hp1 hd1
      split
      · exact ⟨hp1, hd1, fun hvalid => by
          rename_i hcontra
          rw [runEpochBody_raised_of_valid cfg e _ hvalid, hpres.2.2.1, hr] at hcontra
          exact absurd hcontra (by simp)⟩
      · rename_i hok
        have hr1 : (runEpochBody cfg e
            { st with epochsStarted := st.epochsStarted + 1 }).raisedError = none := by
          cases hval : (runEpochBody cfg e
              { st with epochsStarted := st.epochsStarted + 1 }).raisedError
          · rfl
          · exact absurd (by rw [hval]; rfl) hok
        have hrec' := hrec hr1
        refine ⟨hrec'.1, hrec'.2.1, fun hvalid => ?_⟩
        obtain ⟨hrr, hrl⟩ := hrec'.2.2 hvalid
        refine ⟨hrr, ?_⟩
        rw [hrl, hl1, Nat.succ_mul]
        omega

/-! ### Claim theorems about the training loop -/

theorem runEpochBody_raised_invalid (cfg : TrainConfig) (e : ℕ) (st : TrainState)
    (h1 : cfg.rateUpdate ≠ "simple") (h2 : cfg.rateUpdate ≠ "adaptive")
    (h3 : cfg.rateUpdate ≠ "constant") :
    (runEpochBody cfg e st).raisedError
      = some ("Unknown learning rate update strategy: " ++ cfg.rateUpdate) := by
  simp only [runEpochBody]
  rw [if_neg h1, if_neg h2, if_neg h3]

theorem batchStep_first_checkpoints (cfg : TrainConfig) (st : TrainState) :
    (batchStep cfg 0 0 st).1.checkpoints = st.checkpoints + 1 := by
  simp only [batchStep]
  have hv : ((0 * cfg.nTrainBatches + 0) % cfg.validationFreq == 0) = true := by
    simp
  rw [if_pos hv]
  simp [checkpointStep_fields]

/-- Claim C1 (refuted): the "validation" statements at lbl.py lines
251-252, which reference the undefined names `validate_model`,
`n_valid_batches` and `numpy`, are not dead code.  They sit inside the
`itr % validation_freq == 0` block, which executes on the very first
minibatch of every run (`itr = 0` and `0 % validation_freq == 0`), so any
call of `train_lbl` with at least one epoch and one training minibatch
runs the enclosing block (`checkpoints ≥ 1` counts its executions) — and
in Python those lines then raise `NameError`. -/
theorem validation_block_reached (cfg : TrainConfig)
    (h1 : 1 ≤ cfg.epochs) (h2 : 1 ≤ cfg.nTrainBatches) :
    1 ≤ (train_lbl cfg).checkpoints := by
  obtain ⟨re, hre⟩ : ∃ re, cfg.epochs = re + 1 := ⟨cfg.epochs - 1, by omega⟩
  obtain ⟨rb, hrb⟩ : ∃ rb, cfg.nTrainBatches = rb + 1 := ⟨cfg.nTrainBatches - 1, by omega⟩
  rw [train_lbl, hre]
  simp only [runEpochs]
  rw [if_neg (show ¬ (initState cfg).done_looping = true by simp [initState])]
  have hc := batchStep_first_checkpoints cfg
    { initState cfg with epochsStarted := (initState cfg).epochsStarted + 1 }
  have hkey : 1 ≤ (runEpochBody cfg 0
      { initState cfg with
          epochsStarted := (initState cfg).epochsStarted + 1 }).checkpoints := by
    rw [(runEpochBody_fields cfg 0 _).2.2.2.1, hrb]
    simp only [runBatches]
    split
    · show 1 ≤ (batchStep cfg 0 0 { initState cfg with
        epochsStarted := (initState cfg).epochsStarted + 1 }).1.checkpoints
      rw [hc]
      exact Nat.le_add_left 1 _
    · calc (1 : ℕ)
          ≤ (batchStep cfg 0 0 { initState cfg with
              epochsStarted := (initState cfg).epochsStarted + 1 }).1.checkpoints := by
            rw [hc]
            exact Nat.le_add_left 1 _
        _ ≤ _ := runBatches_checkpoints_mono cfg 0 rb 1
            (batchStep cfg 0 0 { initState cfg with
              epochsStarted := (initState cfg).epochsStarted + 1 }).1
  split
  · exact hkey
  · exact hkey.trans (runEpochs_checkpoints_mono cfg re 1 _)

/-- A concrete run with one epoch and one training minibatch, used as the
failing input of C1. -/
def cfgOneBatch : TrainConfig :=
  ⟨1, 1, 1000, "constant", 1, none, 2, 1, fun _ => 2, fun _ => 2⟩

/-- Witness for C1: on the concrete one-minibatch configuration the
validation block (with the defective lines inside) runs. -/
theorem validation_block_reached_witness :
    1 ≤ cfgOneBatch.epochs ∧ 1 ≤ cfgOneBatch.nTrainBatches ∧
    1 ≤ (train_lbl cfgOneBatch).checkpoints :=
  ⟨by decide, by decide, validation_block_reached cfgOneBatch (by decide) (by decide)⟩

/-- Claim C6: at the end of every epoch `e` (0-indexed) the `simple`
schedule sets the learning rate to `1/(e+1)`; the `adaptive` schedule
halves it exactly when the end-of-epoch dev perplexity strictly exceeds
the previous epoch's end-of-epoch dev perplexity (initially `np.inf`,
modelled by `none`, which is never exceeded) and leaves it unchanged
otherwise; the `constant` schedule never changes it. -/
theorem rate_update_schedules (cfg : TrainConfig) (e : ℕ) (st : TrainState) :
    (cfg.rateUpdate = "simple" →
      (runEpochBody cfg e st).learning_rate = 1 / ((e : ℚ) + 1)) ∧
    (cfg.rateUpdate = "adaptive" →
      ((runEpochBody cfg e st).learning_rate =
        if qGtOpt (cfg.devPplOracle (runBatches cfg e 0 cfg.nTrainBatches st).updates)
            st.last_epoch_dev_ppl then
          st.learning_rate / 2
        else st.learning_rate) ∧
      (runEpochBody cfg e st).last_epoch_dev_ppl
        = some (cfg.devPplOracle (runBatches cfg e 0 cfg.nTrainBatches st).updates)) ∧
    (cfg.rateUpdate = "constant" →
      (runEpochBody cfg e st).learning_rate = st.learning_rate) := by
  have hpres := runBatches_preserves cfg e cfg.nTrainBatches 0 st
  refine ⟨?_, ?_, ?_⟩
  · intro h
    simp [runEpochBody, h]
  · intro h
    have hns : ¬ cfg.rateUpdate = "simple" := by rw [h]; decide
    constructor
    · simp only [runEpochBody]
      rw [if_neg hns, if_pos h]
      show (if qGtOpt (cfg.devPplOracle (runBatches cfg e 0 cfg.nTrainBatches st).updates)
            (runBatches cfg e 0 cfg.nTrainBatches st).last_epoch_dev_ppl then
          (runBatches cfg e 0 cfg.nTrainBatches st).learning_rate / 2
        else (runBatches cfg e 0 cfg.nTrainBatches st).learning_rate) = _
      rw [hpres.1, hpres.2.1]
    · simp only [runEpochBody]
      rw [if_neg hns, if_pos h]
  · intro h
    have hns : ¬ cfg.rateUpdate = "simple" := by rw [h]; decide
    have hna : ¬ cfg.rateUpdate = "adaptive" := by rw [h]; decide
    simp only [runEpochBody]
    rw [if_neg hns, if_neg hna, if_pos h]
    exact hpres.1

/-- A concrete configuration with the `constant` schedule. -/
def cfgConstant : TrainConfig :=
  ⟨1, 1, 1000, "constant", 1, none, 2, 1, fun _ => 2, fun _ => 2⟩

/-- Witness for C6: under the constant schedule a concrete epoch leaves
the learning rate unchanged. -/
theorem rate_update_schedules_witness :
    (runEpochBody cfgConstant 0 (initState cfgConstant)).learning_rate
      = (initState cfgConstant).learning_rate :=
  (rate_update_schedules cfgConstant 0 (initState cfgConstant)).2.2 rfl

/-- Claim C9: for every `rate_update` strategy name other than `simple`,
`adaptive` or `constant`, `train_lbl` raises the `ValueError` of lbl.py
line 287 at the end of the first epoch, before any further training epoch
runs (`epochsStarted = 1`). -/
theorem invalid_rate_update_raises (cfg : TrainConfig)
    (h1 : cfg.rateUpdate ≠ "simple") (h2 : cfg.rateUpdate ≠ "adaptive")
    (h3 : cfg.rateUpdate ≠ "constant") (h4 : 1 ≤ cfg.epochs) :
    (train_lbl cfg).raisedError
      = some ("Unknown learning rate update strategy: " ++ cfg.rateUpdate) ∧
    (train_lbl cfg).epochsStarted = 1 := by
  obtain ⟨re, hre⟩ : ∃ re, cfg.epochs = re + 1 := ⟨cfg.epochs - 1, by omega⟩
  rw [train_lbl, hre]
  simp only [runEpochs]
  rw [if_neg (show ¬ (initState cfg).done_looping = true by simp [initState])]
  have hraise := runEpochBody_raised_invalid cfg 0
    { initState cfg with epochsStarted := (initState cfg).epochsStarted + 1 } h1 h2 h3
  rw [if_pos (show (runEpochBody cfg 0 { initState cfg with
      epochsStarted := (initState cfg).epochsStarted + 1 }).raisedError.isSome = true by
    rw [hraise]; rfl)]
  refine ⟨hraise, ?_⟩
  rw [(runEpochBody_fields cfg 0 _).2.2.2.2.2,
    (runBatches_preserves cfg 0 cfg.nTrainBatches 0 _).2.2.2]
  rfl

/-- A concrete configuration with a bogus schedule name. -/
def cfgBogus : TrainConfig :=
  ⟨0, 1, 1000, "bogus", 1, none, 2, 1, fun _ => 2, fun _ => 2⟩

/-- Witness for C9: the bogus strategy raises at the end of epoch 0. -/
theorem invalid_rate_update_raises_witness :
    (train_lbl cfgBogus).raisedError
      = some ("Unknown learning rate update strategy: " ++ cfgBogus.rateUpdate) ∧
    (train_lbl cfgBogus).epochsStarted = 1 :=
  invalid_rate_update_raises cfgBogus (by decide) (by decide) (by decide) (by decide)

/-- Claim C7 (amended): the early-stopping check fires (and the trainer
halts before processing any further minibatch — `stop` can only be set at
the trace's final entry) exactly when the current patience is truthy
(non-`None` and nonzero: Python's `if patience and patience <= itr`) and
`patience ≤ itr`; a configured budget `P` only ever grows
(`en.pat = some q` with `P ≤ q` at every processed minibatch, so a
positive configured budget stays truthy); at an improving checkpoint whose
relative improvement beats the threshold, the new patience is
`max(old_patience, itr * patience_incr)`; and with patience unset (`None`)
training never stops early. -/
theorem early_stopping_patience (cfg : TrainConfig) :
    stopOnlyLast (train_lbl cfg).trace = true ∧
    (∀ en ∈ (train_lbl cfg).trace,
      en.stop = (patienceTruthy en.pat && patienceLe en.pat en.itr)) ∧
    (∀ P : ℤ, cfg.patience0 = some P →
      ∀ en ∈ (train_lbl cfg).trace, ∃ q, en.pat = some q ∧ P ≤ q) ∧
    (∀ (itr : ℕ) (st : TrainState), patienceTruthy st.patience = true →
      qLtInf (cfg.devPplOracle st.updates) st.best_dev_ppl = true →
      qLtMulInf (cfg.devPplOracle st.updates) st.best_dev_ppl
        cfg.improvementThrs = true →
      (checkpointStep cfg itr st).patience
        = some (max (st.patience.getD 0) ((itr : ℤ) * cfg.patienceIncr))) ∧
    (cfg.patience0 = none →
      (train_lbl cfg).done_looping = false ∧
      ((cfg.rateUpdate = "simple" ∨ cfg.rateUpdate = "adaptive"
          ∨ cfg.rateUpdate = "constant") →
        (train_lbl cfg).trace.length = cfg.epochs * cfg.nTrainBatches)) := by
  refine ⟨?_, ?_, ?_, ?_, ?_⟩
  · exact (runEpochs_stopOnlyLast cfg cfg.epochs 0 (initState cfg) rfl
      (fun _ en hen => absurd hen (by simp [initState]))).1
  · exact runEpochs_entries cfg cfg.epochs 0 (initState cfg)
      (fun en hen => absurd hen (by simp [initState]))
  · intro P hP en hen
    exact runEpochs_patience_ge cfg P cfg.epochs 0 (initState cfg) P hP (le_refl P)
      (fun en2 hen2 => absurd hen2 (by simp [initState])) en hen
  · intro itr st ht hlt hmul
    simp only [checkpointStep]
    rw [if_pos hlt]
    have hcond : (patienceTruthy st.patience
        && qLtMulInf (cfg.devPplOracle st.updates) st.best_dev_ppl
          cfg.improvementThrs) = true := by
      rw [ht, hmul]
      rfl
    rw [if_pos hcond]
  · intro hP
    have h := runEpochs_patience_none cfg cfg.epochs 0 (initState cfg) hP rfl rfl
    refine ⟨h.2.1, fun hvalid => ?_⟩
    have h3 := h.2.2 hvalid
    rw [train_lbl, h3.2]
    simp [initState]

/-- A concrete configuration with patience unset and two minibatches. -/
def cfgNoPatience : TrainConfig :=
  ⟨1, 2, 1000, "constant", 1, none, 2, 1, fun _ => 2, fun _ => 2⟩

/-- Witness for C7 (amended): with patience `None` the trainer never stops
early and processes all `epochs * n_train_batches` minibatches. -/
theorem early_stopping_patience_witness :
    (train_lbl cfgNoPatience).done_looping = false ∧
    (train_lbl cfgNoPatience).trace.length = 2 := by
  have h := (early_stopping_patience cfgNoPatience).2.2.2.2 rfl
  exact ⟨h.1, (h.2 (Or.inr (Or.inr rfl))).trans (by decide)⟩

/-- A concrete configuration with a configured patience budget of `0`. -/
def cfgPatienceZero : TrainConfig :=
  ⟨2, 1, 1000, "constant", 1, some 0, 2, 1, fun _ => 2, fun _ => 2⟩

/-- Counterexample to C7 as stated: with a configured patience budget of
`0` the iteration counter reaches the budget immediately (`itr = 0 ≥ 0`),
yet the trainer processes a second minibatch (iterations `[0, 1]`) and
never halts early: Python's `if patience and patience <= itr` treats
`patience = 0` as falsy, disabling early stopping entirely. -/
theorem patience_zero_never_stops :
    cfgPatienceZero.patience0 = some 0 ∧
    (train_lbl cfgPatienceZero).trace.map TraceEntry.itr = [0, 1] ∧
    (train_lbl cfgPatienceZero).done_looping = false := by
  decide

end NeuralLM